import Mathlib

/-!
# Verification of the square-root filtering/smoothing core of `probdiffeq`/`odefilter`

Shallow embedding of the numerical core described in `spec.md`:
the isotropic state-space implementation (`odefilter/implementations/isotropic.py`),
the Markov-sequence marginalisation (`odefilter/markov.py`), and the square-root
linear-algebra kernels (`odefilter/implementations/sqrtm.py`, modelled from the
spec where the file itself is not among the sources).

Machine floats are modelled by an abstract (linearly ordered) field; the
square-root kernels, whose outputs are only determined up to an orthogonal
transformation, are modelled by their QR characterisation.
-/

namespace OdeFilter

open Matrix

section DataModel

variable {n d : Type*} {F : Type*}

/-- Embedding of `IsotropicNormal` from `odefilter/implementations/isotropic.py`:
a Gaussian with matrix-shaped mean `(n, d)` and a shared square-root
covariance factor of shape `(n, n)`. -/
structure IsotropicNormal (n d F : Type*) where
  mean : Matrix n d F
  cov_sqrtm_lower : Matrix n n F

/-- Embedding of `rv.Normal` as used in `odefilter/markov.py`: vector mean and a
square-root covariance factor. -/
structure Normal (n F : Type*) where
  mean : n → F
  cov_sqrtm_lower : Matrix n n F

/-- A backward conditional `(transition, noise)`: it represents
`x_k given x_next ~ N(transition @ x_next + noise.mean, noise.cov)`. -/
structure BackwardModel (n d F : Type*) where
  transition : Matrix n n F
  noise : IsotropicNormal n d F

end DataModel

section Kernels

variable {m n p q : Type*} {F : Type*} [Field F]
variable [Fintype m] [Fintype n] [DecidableEq m] [DecidableEq n]

/-- The Gram-product contract of `sum_of_sqrtm_factors` (spec §4.1, tested in
`test_cholesky_util.py`): the output `R` satisfies `Rᵀ R = R1ᵀ R1 + R2ᵀ R2`.
The kernel itself lives in `odefilter/implementations/sqrtm.py`, which is not
among the sources; every theorem that depends on it assumes this contract of
an otherwise arbitrary kernel function. -/
def SqrtSumContract [Fintype p] [Fintype q]
    (sumFac : Matrix p n F → Matrix q n F → Matrix n n F)
    (R1 : Matrix p n F) (R2 : Matrix q n F) : Prop :=
  (sumFac R1 R2)ᵀ * sumFac R1 R2 = R1ᵀ * R1 + R2ᵀ * R2

/-- Modelled from the spec: `sum_of_sqrtm_factors` is "computed via QR
decomposition of the stacked `[R1; R2]`" (spec §4.1); the code
(`odefilter/implementations/sqrtm.py`) is not among the sources.  This is the
stacked matrix whose QR factorisation the kernel takes. -/
def stackedFactors (R1 : Matrix p n F) (R2 : Matrix q n F) : Matrix (p ⊕ q) n F :=
  Matrix.fromRows R1 R2

end Kernels

section FinalCorrection

variable {n d : Type*} [Fintype n] [Fintype d] {F : Type*} [Field F]

/-- Embedding of `IsotropicImplementation.final_correction` from
`odefilter/implementations/isotropic.py`:

```python
l_obs = linear_fn(l_ext)            # shape (n,)
c_obs = jnp.dot(l_obs, l_obs)
g = (l_ext @ l_obs.T) / c_obs       # shape (n,)
m_cor = m_ext - g[:, None] * m_obs[None, :]
l_cor = l_ext - g[:, None] * l_obs[None, :]
```
-/
def final_correction (linear_fn : Matrix n n F → (n → F))
    (extrapolated : IsotropicNormal n d F) (m_obs : d → F) : IsotropicNormal n d F :=
  let l_ext := extrapolated.cov_sqrtm_lower
  let l_obs := linear_fn l_ext
  let c_obs := ∑ i, l_obs i * l_obs i
  let g : n → F := fun i => (∑ j, l_ext i j * l_obs j) / c_obs
  { mean := fun i k => extrapolated.mean i k - g i * m_obs k
    cov_sqrtm_lower := fun i j => l_ext i j - g i * l_obs j }

/-- The scalar observation variance `c_obs = jnp.dot(l_obs, l_obs)` of
`final_correction`. -/
def obs_variance (linear_fn : Matrix n n F → (n → F))
    (extrapolated : IsotropicNormal n d F) : F :=
  ∑ i, linear_fn extrapolated.cov_sqrtm_lower i * linear_fn extrapolated.cov_sqrtm_lower i

/-- The Kalman gain vector `g = (l_ext @ l_obs.T) / c_obs` of `final_correction`. -/
def correction_gain (linear_fn : Matrix n n F → (n → F))
    (extrapolated : IsotropicNormal n d F) : n → F :=
  fun i =>
    (∑ j, extrapolated.cov_sqrtm_lower i j * linear_fn extrapolated.cov_sqrtm_lower j) /
      obs_variance linear_fn extrapolated

end FinalCorrection

section MarkovDefs

variable {n : Type*} [Fintype n] {F : Type*} [Field F]

/-- Embedding of `marginalise` from `odefilter/markov.py`:

```python
mean_new = jnp.dot(operator, mean) + noise_mean
cov_sqrtm_lower_new = sqrtm.sum_of_sqrtm_factors(
    R1=jnp.dot(operator, cov_sqrtm_lower).T, R2=noise_cov_sqrtm_lower.T).T
```

The square-root summation kernel (`sum_of_sqrtm_factors`, whose module is not
among the sources) is passed in as the parameter `sumFac`. -/
def marginalise (sumFac : Matrix n n F → Matrix n n F → Matrix n n F)
    (init : Normal n F) (operator : Matrix n n F) (noise : Normal n F) : Normal n F :=
  { mean := operator.mulVec init.mean + noise.mean
    cov_sqrtm_lower :=
      (sumFac (operator * init.cov_sqrtm_lower)ᵀ noise.cov_sqrtm_lowerᵀ)ᵀ }

end MarkovDefs

section CondenseDefs

variable {n d : Type*} [Fintype n] {F : Type*} [Field F]

/-- Embedding of `IsotropicImplementation.condense_backward_models` from
`odefilter/implementations/isotropic.py`:

```python
g = A @ C
xi = A @ d + b
Xi = sqrtm.sum_of_sqrtm_factors(R1=(A @ D_sqrtm).T, R2=B_sqrtm.T).T
```

where `(A, b, B_sqrtm)` is `bw_init` and `(C, d, D_sqrtm)` is `bw_state`. -/
def condense_backward_models (sumFac : Matrix n n F → Matrix n n F → Matrix n n F)
    (bw_init bw_state : BackwardModel n d F) : BackwardModel n d F :=
  { transition := bw_init.transition * bw_state.transition
    noise :=
      { mean := bw_init.transition * bw_state.noise.mean + bw_init.noise.mean
        cov_sqrtm_lower :=
          (sumFac (bw_init.transition * bw_state.noise.cov_sqrtm_lower)ᵀ
              bw_init.noise.cov_sqrtm_lowerᵀ)ᵀ } }

/-- The noise-covariance Gram product `L @ L.T` of a backward model; the factor
`L` itself is only determined up to an orthogonal transformation. -/
def noiseGram (bm : BackwardModel n d F) : Matrix n n F :=
  bm.noise.cov_sqrtm_lower * bm.noise.cov_sqrtm_lowerᵀ

/-- Embedding of `IsotropicImplementation.marginalise_model_isotropic` from
`odefilter/implementations/isotropic.py`:

```python
m_new_p = linop @ m0_p + noise.mean
l_new_p = sqrtm.sum_of_sqrtm_factors(
    R1=(linop @ l0_p).T, R2=noise.cov_sqrtm_lower.T).T
```
-/
def marginalise_model_isotropic (sumFac : Matrix n n F → Matrix n n F → Matrix n n F)
    (init : IsotropicNormal n d F) (linop : Matrix n n F)
    (noise : IsotropicNormal n d F) : IsotropicNormal n d F :=
  { mean := linop * init.mean + noise.mean
    cov_sqrtm_lower :=
      (sumFac (linop * init.cov_sqrtm_lower)ᵀ noise.cov_sqrtm_lowerᵀ)ᵀ }

/-- The trivial backward conditional at `t0`, from
`IsotropicImplementation.init_backward_transition` (`jnp.eye`) and
`init_backward_noise` (zero mean, zero covariance factor) in
`odefilter/implementations/isotropic.py`. -/
def trivial_backward_model (n d F : Type*) [Fintype n] [DecidableEq n] [Field F] :
    BackwardModel n d F :=
  { transition := 1
    noise := { mean := 0, cov_sqrtm_lower := 0 } }

end CondenseDefs

section ScanDefs

variable {S X : Type*}

/-- Successive carries of a left scan: `scanAccum f s [x1, x2, ...] =
[f s x1, f (f s x1) x2, ...]`. -/
def scanAccum (f : S → X → S) : S → List X → List S
  | _, [] => []
  | s, x :: xs => f s x :: scanAccum f (f s x) xs

/-- Modelled from the spec: `scan_with_init` from `odefilter/_control_flow.py`,
which is not among the sources.  Per spec §4.8, `marginalise` is "implemented
as a scan with the recursion direction as a flag" and produces "the marginal
Gaussian at every stored node"; `scan_with_init` therefore stacks the initial
carry together with the scan outputs.  With `reverse = true` the inputs are
consumed from last to first and the outputs are stacked in input order, the
initial carry standing at the terminal node. -/
def scan_with_init (f : S → X → S) (init : S) (xs : List X) (reverse : Bool) : List S :=
  if reverse then (scanAccum f init xs.reverse).reverse ++ [init]
  else init :: scanAccum f init xs

end ScanDefs

section MarginaliseBackwardsDefs

variable {n d : Type*} [Fintype n] {F : Type*} [Field F]

/-- Embedding of `IsotropicImplementation.marginalise_backwards` from
`odefilter/implementations/isotropic.py`:

```python
bw_models = jax.tree_util.tree_map(lambda x: x[1:, ...], backward_model)
_, rvs = _control_flow.scan_with_init(
    f=body_fun, init=init, xs=bw_models, reverse=True)
```

The backward-model stack is modelled as a list; slicing `x[1:, ...]` is
`List.drop 1`. -/
def marginalise_backwards (sumFac : Matrix n n F → Matrix n n F → Matrix n n F)
    (init : IsotropicNormal n d F) (backward_model : List (BackwardModel n d F)) :
    List (IsotropicNormal n d F) :=
  scan_with_init
    (fun carry x => marginalise_model_isotropic sumFac carry x.transition x.noise)
    init (backward_model.drop 1) true

end MarginaliseBackwardsDefs

section PreconditionerDefs

variable {n d : Type*} [Fintype n] {F : Type*} [Field F]

/-- Row-wise rescaling `p[:, None] * M`, the way the diagonal preconditioner is
applied throughout `odefilter/implementations/isotropic.py`. -/
def rowScale (p : n → F) (M : Matrix n d F) : Matrix n d F :=
  fun i j => p i * M i j

/-- Embedding of `IsotropicImplementation.extrapolate_mean` from
`odefilter/implementations/isotropic.py`:

```python
m0_p = p_inv[:, None] * m0
m_ext_p = self.a @ m0_p
m_ext = p[:, None] * m_ext_p
return m_ext, m_ext_p, m0_p
```
-/
def extrapolate_mean (a : Matrix n n F) (m0 : Matrix n d F) (p p_inv : n → F) :
    Matrix n d F × Matrix n d F × Matrix n d F :=
  let m0_p := rowScale p_inv m0
  let m_ext_p := a * m0_p
  let m_ext := rowScale p m_ext_p
  (m_ext, m_ext_p, m0_p)

/-- Embedding of `IsotropicImplementation.complete_extrapolation` from
`odefilter/implementations/isotropic.py`:

```python
l0_p = p_inv[:, None] * l0
l_ext_p = sqrtm.sum_of_sqrtm_factors(
    R1=(self.a @ l0_p).T, R2=(diffusion_sqrtm * self.q_sqrtm_lower).T).T
l_ext = p[:, None] * l_ext_p
return IsotropicNormal(m_ext, l_ext)
```
-/
def complete_extrapolation (sumFac : Matrix n n F → Matrix n n F → Matrix n n F)
    (a q_sqrtm_lower : Matrix n n F) (m_ext : Matrix n d F) (l0 : Matrix n n F)
    (p_inv p : n → F) (diffusion_sqrtm : F) : IsotropicNormal n d F :=
  let l0_p := rowScale p_inv l0
  let l_ext_p := (sumFac (a * l0_p)ᵀ (diffusion_sqrtm • q_sqrtm_lower)ᵀ)ᵀ
  { mean := m_ext, cov_sqrtm_lower := rowScale p l_ext_p }

/-- Embedding of `IsotropicImplementation.revert_markov_kernel` from
`odefilter/implementations/isotropic.py`; the square-root reversion kernel
(`sqrtm.revert_gauss_markov_correlation`, whose module is not among the
sources) is passed in as `revertFac`, returning `(r_ext_p, (r_bw_p, g_bw_p))`:

```python
l0_p = p_inv[:, None] * l0
r_ext_p, (r_bw_p, g_bw_p) = sqrtm.revert_gauss_markov_correlation(
    R_X_F=(self.a @ l0_p).T, R_X=l0_p.T,
    R_YX=(diffusion_sqrtm * self.q_sqrtm_lower).T)
l_ext_p, l_bw_p = r_ext_p.T, r_bw_p.T
m_bw_p = m0_p - g_bw_p @ m_ext_p
l_ext = p[:, None] * l_ext_p
m_bw = p[:, None] * m_bw_p
l_bw = p[:, None] * l_bw_p
g_bw = p[:, None] * g_bw_p * p_inv[None, :]
```
-/
def revert_markov_kernel
    (revertFac : Matrix n n F → Matrix n n F → Matrix n n F →
      Matrix n n F × Matrix n n F × Matrix n n F)
    (a q_sqrtm_lower : Matrix n n F) (m_ext : Matrix n d F) (l0 : Matrix n n F)
    (p p_inv : n → F) (diffusion_sqrtm : F) (m0_p m_ext_p : Matrix n d F) :
    IsotropicNormal n d F × (IsotropicNormal n d F × Matrix n n F) :=
  let l0_p := rowScale p_inv l0
  let out := revertFac (a * l0_p)ᵀ l0_pᵀ (diffusion_sqrtm • q_sqrtm_lower)ᵀ
  let l_ext_p := out.1ᵀ
  let l_bw_p := out.2.1ᵀ
  let g_bw_p := out.2.2
  let m_bw_p := m0_p - g_bw_p * m_ext_p
  ({ mean := m_ext, cov_sqrtm_lower := rowScale p l_ext_p },
    ({ mean := rowScale p m_bw_p, cov_sqrtm_lower := rowScale p l_bw_p },
      fun i j => p i * g_bw_p i j * p_inv j))

/-- The preconditioned-space outputs of the reversion kernel inside
`revert_markov_kernel`, before the preconditioner is un-applied. -/
def revert_preconditioned
    (revertFac : Matrix n n F → Matrix n n F → Matrix n n F →
      Matrix n n F × Matrix n n F × Matrix n n F)
    (a q_sqrtm_lower l0 : Matrix n n F) (p_inv : n → F) (diffusion_sqrtm : F) :
    Matrix n n F × Matrix n n F × Matrix n n F :=
  revertFac (a * rowScale p_inv l0)ᵀ (rowScale p_inv l0)ᵀ (diffusion_sqrtm • q_sqrtm_lower)ᵀ

end PreconditionerDefs

section RevertConditionalDefs

variable {m n : Type*} [Fintype m] [Fintype n] [DecidableEq m] [DecidableEq n]
variable {F : Type*} [Field F]

/-- Modelled from the spec: `revert_conditional` (in the repository's
`cholesky_util`/`sqrtm` module, which is not among the sources) performs "a
single joint QR factorization" of the joint square-root blocks (spec §4.1).
This is the stacked joint block matrix it factorises: rows
`[[R_YX, 0], [R_X_F, R_X]]`, whose Gram product is the joint covariance of
`(y, x)`. -/
def revertStack (R_X_F : Matrix n m F) (R_X : Matrix n n F) (R_YX : Matrix m m F) :
    Matrix (m ⊕ n) (m ⊕ n) F :=
  Matrix.fromBlocks R_YX 0 R_X_F R_X

/-- The analytic marginal covariance `S = HC @ HC.T + X @ X.T` (with
`HC = R_X_F.T` and `X = R_YX.T`), the dense ground truth of
`test_cholesky_util.test_revert_conditional`. -/
def marginalCov (R_X_F : Matrix n m F) (R_YX : Matrix m m F) : Matrix m m F :=
  R_X_Fᵀ * R_X_F + R_YXᵀ * R_YX

/-- The analytic Kalman gain `K = C @ HC.T @ inv(S)` (with `C = R_X.T`), the
dense ground truth of `test_cholesky_util.test_revert_conditional`. -/
noncomputable def kalmanGain (R_X_F : Matrix n m F) (R_X : Matrix n n F)
    (R_YX : Matrix m m F) : Matrix n m F :=
  R_Xᵀ * R_X_F * (marginalCov R_X_F R_YX)⁻¹

/-- The analytic conditional covariance `C @ C.T - K @ S @ K.T`, the dense
ground truth of `test_cholesky_util.test_revert_conditional`. -/
noncomputable def conditionalCov (R_X_F : Matrix n m F) (R_X : Matrix n n F)
    (R_YX : Matrix m m F) : Matrix n n F :=
  R_Xᵀ * R_X - kalmanGain R_X_F R_X R_YX * marginalCov R_X_F R_YX *
    (kalmanGain R_X_F R_X R_YX)ᵀ

end RevertConditionalDefs

section EstimateErrorDefs

variable {n d : Type*} [Fintype n] [Fintype d]

/-- Modelled from the spec: `sqrtm_to_cholesky` applied to a single column
(its module is not among the sources) reduces the column to the scalar
Cholesky factor of its Gram product, its Euclidean norm; per spec §4.1/§7(c),
exactly-zero input is absorbed by "a numerically negligible epsilon-perturbation
strategy when inputs are exactly zero", so the returned magnitude is the
positive guard value `eps` instead of zero. -/
noncomputable def sqrtm_to_cholesky_col (eps : ℝ) (x : n → ℝ) : ℝ :=
  if x = 0 then eps else Real.sqrt (∑ i, x i ^ 2)

/-- The observation-noise magnitude `l_obs` computed by
`IsotropicImplementation.estimate_error`
(`odefilter/implementations/isotropic.py`):

```python
l_obs_raw = linear_fn(p[:, None] * self.q_sqrtm_lower)
l_obs = sqrtm.sqrtm_to_cholesky(R=l_obs_raw[:, None])[0, 0]
```
-/
noncomputable def obs_magnitude (eps : ℝ) (linear_fn : Matrix n n ℝ → (n → ℝ))
    (p : n → ℝ) (q_sqrtm_lower : Matrix n n ℝ) : ℝ :=
  sqrtm_to_cholesky_col eps (linear_fn (rowScale p q_sqrtm_lower))

/-- Embedding of `IsotropicImplementation.estimate_error` from
`odefilter/implementations/isotropic.py`:

```python
res_white = m_obs / l_obs / jnp.sqrt(m_obs.size)
diffusion_sqrtm = sqrtm.sqrtm_to_cholesky(R=res_white[:, None])[0, 0]
error_estimate = diffusion_sqrtm * l_obs
return diffusion_sqrtm, error_estimate
```
-/
noncomputable def estimate_error (eps : ℝ) (linear_fn : Matrix n n ℝ → (n → ℝ))
    (m_obs : d → ℝ) (p : n → ℝ) (q_sqrtm_lower : Matrix n n ℝ) : ℝ × ℝ :=
  let l_obs := obs_magnitude eps linear_fn p q_sqrtm_lower
  let res_white : d → ℝ := fun i => m_obs i / l_obs / Real.sqrt (Fintype.card d)
  let diffusion_sqrtm := sqrtm_to_cholesky_col eps res_white
  (diffusion_sqrtm, diffusion_sqrtm * l_obs)

end EstimateErrorDefs

section CheckpointDefs

variable {n d : Type*} [Fintype n] [DecidableEq n] {F : Type*} [Field F]

/-- Mean equality together with covariance-Gram equality: the equivalence
class in which the test corpus compares Gaussians (`compare L@L.T, not L`). -/
def gramEquivRV (x y : IsotropicNormal n d F) : Prop :=
  x.mean = y.mean ∧
    x.cov_sqrtm_lower * x.cov_sqrtm_lowerᵀ = y.cov_sqrtm_lower * y.cov_sqrtm_lowerᵀ

/-- Backward conditionals with equal transition, equal noise mean, and equal
noise-covariance Gram product. -/
def gramEquivBM (x y : BackwardModel n d F) : Prop :=
  x.transition = y.transition ∧ gramEquivRV x.noise y.noise

/-- Modelled from the spec: the solve drivers (`ivpsolve`/`recipes`) are not
among the sources.  Per spec §4.5/§4.7, when every checkpoint of
`solve_and_save_at` coincides with an accepted grid point of the adaptive
solve, both pairings run the same forward extrapolate/correct pass over the
same accepted grid, so they share time points, solution values, output scales
and per-step backward conditionals; the smoother stores each per-step backward
conditional unchanged, while the fixed-point smoother resets its accumulated
conditional to the trivial conditional at every checkpoint and condenses
exactly one step before the next checkpoint.  This is the fixed-point
smoother's stored sequence expressed through that condensation. -/
def fixedpoint_stored (sumFac : Matrix n n F → Matrix n n F → Matrix n n F)
    (bms : List (BackwardModel n d F)) : List (BackwardModel n d F) :=
  bms.map (condense_backward_models sumFac (trivial_backward_model n d F))

/-- The per-trajectory content a solve driver returns: time points, output
scales, the stored backward conditionals, and the smoothed marginals. -/
structure CheckpointSolution (n d F : Type*) where
  ts : List F
  output_scales : List F
  backward_models : List (BackwardModel n d F)
  marginals : List (IsotropicNormal n d F)

/-- Modelled from the spec: the solution of `solve_adaptive_save_every_step`
with a Smoother strategy, given the shared forward pass (accepted grid `ts`,
per-step output scales, terminal marginal `init` and per-step backward
conditionals `bms`): each backward conditional is stored unchanged, and the
marginals are produced by the backward marginalisation pass. -/
def smoother_solution (sumFac : Matrix n n F → Matrix n n F → Matrix n n F)
    (ts output_scales : List F) (init : IsotropicNormal n d F)
    (bms : List (BackwardModel n d F)) : CheckpointSolution n d F :=
  { ts := ts
    output_scales := output_scales
    backward_models := bms
    marginals := marginalise_backwards sumFac init bms }

/-- Modelled from the spec: the solution of `solve_and_save_at` with a
FixedPointSmoother strategy when every checkpoint coincides with an accepted
grid point of the same forward pass: the accumulated conditional is reset to
the trivial conditional at each checkpoint and condensed with exactly one
step's conditional before the next checkpoint. -/
def fixedpoint_solution (sumFac : Matrix n n F → Matrix n n F → Matrix n n F)
    (ts output_scales : List F) (init : IsotropicNormal n d F)
    (bms : List (BackwardModel n d F)) : CheckpointSolution n d F :=
  { ts := ts
    output_scales := output_scales
    backward_models := fixedpoint_stored sumFac bms
    marginals := marginalise_backwards sumFac init (fixedpoint_stored sumFac bms) }

end CheckpointDefs

section WitnessData

/-- Concrete orthonormal-column matrix `[[1], [0]]` used to witness QR
hypotheses. -/
def wQstack : Matrix (Fin 1 ⊕ Fin 1) (Fin 1) ℚ := Matrix.fromRows 1 0

/-- Concrete trivial summation kernel used to witness kernel-contract
hypotheses at zero inputs. -/
def wSumZero : Matrix (Fin 1) (Fin 1) ℚ → Matrix (Fin 1) (Fin 1) ℚ →
    Matrix (Fin 1) (Fin 1) ℚ :=
  fun _ _ => 0

/-- Concrete trivial reversion kernel used to witness preconditioner claims. -/
def wRevZero : Matrix (Fin 1) (Fin 1) ℚ → Matrix (Fin 1) (Fin 1) ℚ →
    Matrix (Fin 1) (Fin 1) ℚ →
    Matrix (Fin 1) (Fin 1) ℚ × Matrix (Fin 1) (Fin 1) ℚ × Matrix (Fin 1) (Fin 1) ℚ :=
  fun _ _ _ => (0, 0, 0)

/-- Concrete all-zero Gaussian. -/
def wNormalZero : Normal (Fin 1) ℚ := { mean := 0, cov_sqrtm_lower := 0 }

/-- Concrete backward models with zero covariance factors but nontrivial
transitions and means. -/
def wBMa : BackwardModel (Fin 1) (Fin 1) ℚ :=
  { transition := !![2], noise := { mean := !![5], cov_sqrtm_lower := 0 } }

/-- Concrete backward model, second instance. -/
def wBMb : BackwardModel (Fin 1) (Fin 1) ℚ :=
  { transition := !![3], noise := { mean := !![7], cov_sqrtm_lower := 0 } }

/-- Concrete backward model, third instance. -/
def wBMc : BackwardModel (Fin 1) (Fin 1) ℚ :=
  { transition := !![5], noise := { mean := !![11], cov_sqrtm_lower := 0 } }

/-- Concrete all-zero isotropic Gaussian. -/
def wRVZero : IsotropicNormal (Fin 1) (Fin 1) ℚ := { mean := 0, cov_sqrtm_lower := 0 }

/-- Concrete preconditioner diagonal. -/
def wP : Fin 1 → ℚ := fun _ => 2

/-- Concrete preconditioner inverse diagonal. -/
def wPinv : Fin 1 → ℚ := fun _ => 1 / 2

/-- Concrete transition matrix. -/
def wA : Matrix (Fin 1) (Fin 1) ℚ := !![3]

/-- Concrete process-noise factor. -/
def wQnoise : Matrix (Fin 1) (Fin 1) ℚ := !![7]

/-- Concrete mean. -/
def wM0 : Matrix (Fin 1) (Fin 1) ℚ := !![11]

/-- Concrete covariance factor. -/
def wL0 : Matrix (Fin 1) (Fin 1) ℚ := !![13]

/-- Concrete preconditioned mean input. -/
def wM0p : Matrix (Fin 1) (Fin 1) ℚ := !![17]

/-- Concrete preconditioned extrapolated-mean input. -/
def wMextp : Matrix (Fin 1) (Fin 1) ℚ := !![19]

/-- Concrete reversion-kernel output triple with nonzero entries. -/
def wRevConst : Matrix (Fin 1) (Fin 1) ℚ → Matrix (Fin 1) (Fin 1) ℚ →
    Matrix (Fin 1) (Fin 1) ℚ →
    Matrix (Fin 1) (Fin 1) ℚ × Matrix (Fin 1) (Fin 1) ℚ × Matrix (Fin 1) (Fin 1) ℚ :=
  fun _ _ _ => (!![23], !![29], !![31])

/-- Concrete backward-model list heads that differ. -/
def wBMhead1 : BackwardModel (Fin 1) (Fin 1) ℚ :=
  { transition := !![41], noise := { mean := !![43], cov_sqrtm_lower := !![47] } }

/-- Concrete backward-model list head, second variant. -/
def wBMhead2 : BackwardModel (Fin 1) (Fin 1) ℚ :=
  { transition := 1, noise := { mean := 0, cov_sqrtm_lower := 0 } }

/-- Concrete kernel over the empty index type; in dimension zero it satisfies
the square-root summation contract at every input. -/
def wSumNil : Matrix (Fin 0) (Fin 0) ℚ → Matrix (Fin 0) (Fin 0) ℚ →
    Matrix (Fin 0) (Fin 0) ℚ :=
  fun _ _ => 0

/-- Concrete zero-dimension Gaussian. -/
def wRVNil : IsotropicNormal (Fin 0) (Fin 0) ℚ := { mean := 0, cov_sqrtm_lower := 0 }

/-- Concrete zero-dimension backward model. -/
def wBMNil : BackwardModel (Fin 0) (Fin 0) ℚ := trivial_backward_model (Fin 0) (Fin 0) ℚ

end WitnessData

section FinalCorrectionProof

variable {n d : Type*} [Fintype n] [Fintype d] {F : Type*} [LinearOrderedField F]

theorem obs_variance_eq_zero_imp (l_obs : n → F) (h : ∑ i, l_obs i * l_obs i = 0) :
    ∀ i, l_obs i = 0 := by
  intro i
  have hnn : ∀ j ∈ Finset.univ, (0 : F) ≤ l_obs j * l_obs j := fun j _ => mul_self_nonneg _
  have := (Finset.sum_eq_zero_iff_of_nonneg hnn).mp h i (Finset.mem_univ i)
  exact mul_self_eq_zero.mp this

theorem gain_scaled (linear_fn : Matrix n n F → (n → F))
    (extrapolated : IsotropicNormal n d F) :
    ∀ i, (∑ j, extrapolated.cov_sqrtm_lower i j * linear_fn extrapolated.cov_sqrtm_lower j)
      = obs_variance linear_fn extrapolated * correction_gain linear_fn extrapolated i := by
  intro i
  by_cases hc : obs_variance linear_fn extrapolated = 0
  · have hz := obs_variance_eq_zero_imp (linear_fn extrapolated.cov_sqrtm_lower) hc
    rw [hc, zero_mul]
    exact Finset.sum_eq_zero fun j _ => by rw [hz j, mul_zero]
  · rw [correction_gain, mul_div_cancel₀ _ hc]

/-- C8: `final_correction` is an exact Bayesian update: the corrected mean is
`m_ext - g ⊗ m_obs`, and the Gram product of the corrected covariance factor
equals the analytic posterior covariance `l_ext l_extᵀ - c_obs · g gᵀ`. -/
theorem final_correction_exact_bayes (linear_fn : Matrix n n F → (n → F))
    (extrapolated : IsotropicNormal n d F) (m_obs : d → F) :
    ((final_correction linear_fn extrapolated m_obs).mean
        = fun i k =>
            extrapolated.mean i k - correction_gain linear_fn extrapolated i * m_obs k)
      ∧ (final_correction linear_fn extrapolated m_obs).cov_sqrtm_lower
          * (final_correction linear_fn extrapolated m_obs).cov_sqrtm_lowerᵀ
        = extrapolated.cov_sqrtm_lower * extrapolated.cov_sqrtm_lowerᵀ
            - obs_variance linear_fn extrapolated •
              Matrix.vecMulVec (correction_gain linear_fn extrapolated)
                (correction_gain linear_fn extrapolated) := by
  constructor
  · rfl
  · set L := extrapolated.cov_sqrtm_lower with hL
    set lo := linear_fn extrapolated.cov_sqrtm_lower with hlo
    set c := obs_variance linear_fn extrapolated with hc
    set g := correction_gain linear_fn extrapolated with hg
    have hscaled : ∀ i, (∑ j, L i j * lo j) = c * g i :=
      gain_scaled linear_fn extrapolated
    have hcdef : c = ∑ i, lo i * lo i := rfl
    ext i j
    simp only [Matrix.mul_apply, Matrix.sub_apply, Matrix.smul_apply,
      Matrix.vecMulVec_apply, Matrix.transpose_apply, smul_eq_mul]
    have expand : ∀ k, (L i k - g i * lo k) * (L j k - g j * lo k)
        = L i k * L j k - g j * (L i k * lo k) - g i * (lo k * L j k)
          + g i * g j * (lo k * lo k) := by
      intro k; ring
    have lhs_eq : (final_correction linear_fn extrapolated m_obs).cov_sqrtm_lower
        = fun i j => L i j - g i * lo j := rfl
    calc (∑ k, (final_correction linear_fn extrapolated m_obs).cov_sqrtm_lower i k
            * (final_correction linear_fn extrapolated m_obs).cov_sqrtm_lower j k)
        = ∑ k, (L i k - g i * lo k) * (L j k - g j * lo k) := by rw [lhs_eq]
      _ = (∑ k, L i k * L j k) - g j * (∑ k, L i k * lo k)
            - g i * (∑ k, lo k * L j k) + g i * g j * (∑ k, lo k * lo k) := by
          simp only [expand, Finset.sum_add_distrib, Finset.sum_sub_distrib,
            Finset.mul_sum]
      _ = (∑ k, L i k * L j k) - g j * (c * g i) - g i * (c * g j)
            + g i * g j * c := by
          rw [hscaled i]
          have h2 : (∑ k, lo k * L j k) = c * g j := by
            rw [← hscaled j]; exact Finset.sum_congr rfl fun k _ => mul_comm _ _
          rw [h2, ← hcdef]
      _ = (∑ k, L i k * L j k) - c * (g i * g j) := by ring

end FinalCorrectionProof

section SqrtSumProof

variable {p q n : Type*} [Fintype p] [Fintype q] [Fintype n] [DecidableEq n]
variable {F : Type*} [Field F]

theorem qr_contract_of_orth (R1 : Matrix p n F) (R2 : Matrix q n F)
    (R : Matrix n n F) (Q : Matrix (p ⊕ q) n F)
    (hQR : stackedFactors R1 R2 = Q * R) (hQ : Qᵀ * Q = 1) :
    Rᵀ * R = R1ᵀ * R1 + R2ᵀ * R2 := by
  have h1 : (stackedFactors R1 R2)ᵀ * stackedFactors R1 R2 = Rᵀ * R := by
    rw [hQR, Matrix.transpose_mul, Matrix.mul_assoc, ← Matrix.mul_assoc Qᵀ Q R, hQ,
      Matrix.one_mul]
  rw [← h1, stackedFactors, Matrix.transpose_fromRows, Matrix.fromColumns_mul_fromRows]

end SqrtSumProof

section MarginaliseProof

/-- C2: an output of `sum_of_sqrtm_factors` (characterised by the QR
factorisation of the stacked `[R1; R2]` with orthonormal-column `Q`) satisfies
`Rᵀ R = R1ᵀ R1 + R2ᵀ R2`; consequently `marginalise` returns a Gaussian whose
mean is `operator @ init.mean + noise.mean` and whose covariance-factor Gram
product is `operator @ init_cov @ operatorᵀ + noise_cov`. -/
theorem marginalise_sqrt_sum_correct {n : Type*} [Fintype n] [DecidableEq n]
    {F : Type*} [Field F]
    (sumFac : Matrix n n F → Matrix n n F → Matrix n n F)
    (init : Normal n F) (operator : Matrix n n F) (noise : Normal n F)
    (Q : Matrix (n ⊕ n) n F)
    (hQR : stackedFactors (operator * init.cov_sqrtm_lower)ᵀ noise.cov_sqrtm_lowerᵀ
        = Q * sumFac (operator * init.cov_sqrtm_lower)ᵀ noise.cov_sqrtm_lowerᵀ)
    (hQ : Qᵀ * Q = 1) :
    SqrtSumContract sumFac (operator * init.cov_sqrtm_lower)ᵀ noise.cov_sqrtm_lowerᵀ
    ∧ (marginalise sumFac init operator noise).mean
        = operator.mulVec init.mean + noise.mean
    ∧ (marginalise sumFac init operator noise).cov_sqrtm_lower
          * (marginalise sumFac init operator noise).cov_sqrtm_lowerᵀ
        = operator * (init.cov_sqrtm_lower * init.cov_sqrtm_lowerᵀ) * operatorᵀ
            + noise.cov_sqrtm_lower * noise.cov_sqrtm_lowerᵀ := by
  have hcontract :
      SqrtSumContract sumFac (operator * init.cov_sqrtm_lower)ᵀ
        noise.cov_sqrtm_lowerᵀ :=
    qr_contract_of_orth _ _ _ Q hQR hQ
  refine ⟨hcontract, rfl, ?_⟩
  show (sumFac _ _)ᵀ * ((sumFac _ _)ᵀ)ᵀ = _
  rw [Matrix.transpose_transpose, hcontract]
  simp only [Matrix.transpose_transpose, Matrix.transpose_mul, Matrix.mul_assoc]

/-- Witness for C2 at a concrete instance: zero covariance factors, the zero
summation kernel, and the orthonormal-column stack `[[1], [0]]`. -/
theorem marginalise_sqrt_sum_correct_witness :
    (stackedFactors ((0 : Matrix (Fin 1) (Fin 1) ℚ) * wNormalZero.cov_sqrtm_lower)ᵀ
          wNormalZero.cov_sqrtm_lowerᵀ
        = wQstack * wSumZero ((0 : Matrix (Fin 1) (Fin 1) ℚ) * wNormalZero.cov_sqrtm_lower)ᵀ
            wNormalZero.cov_sqrtm_lowerᵀ)
    ∧ (wQstackᵀ * wQstack = 1)
    ∧ (SqrtSumContract wSumZero
          ((0 : Matrix (Fin 1) (Fin 1) ℚ) * wNormalZero.cov_sqrtm_lower)ᵀ
          wNormalZero.cov_sqrtm_lowerᵀ
        ∧ (marginalise wSumZero wNormalZero 0 wNormalZero).mean
            = (0 : Matrix (Fin 1) (Fin 1) ℚ).mulVec wNormalZero.mean + wNormalZero.mean
        ∧ (marginalise wSumZero wNormalZero 0 wNormalZero).cov_sqrtm_lower
              * (marginalise wSumZero wNormalZero 0 wNormalZero).cov_sqrtm_lowerᵀ
            = 0 * (wNormalZero.cov_sqrtm_lower * wNormalZero.cov_sqrtm_lowerᵀ) * (0 : Matrix (Fin 1) (Fin 1) ℚ)ᵀ
                + wNormalZero.cov_sqrtm_lower * wNormalZero.cov_sqrtm_lowerᵀ) := by
  have hz : wNormalZero.cov_sqrtm_lower = 0 := rfl
  have hQR : stackedFactors ((0 : Matrix (Fin 1) (Fin 1) ℚ) * wNormalZero.cov_sqrtm_lower)ᵀ
      wNormalZero.cov_sqrtm_lowerᵀ
      = wQstack * wSumZero ((0 : Matrix (Fin 1) (Fin 1) ℚ) * wNormalZero.cov_sqrtm_lower)ᵀ
          wNormalZero.cov_sqrtm_lowerᵀ := by
    rw [hz, mul_zero, Matrix.transpose_zero]
    show stackedFactors 0 0 = wQstack * 0
    rw [Matrix.mul_zero]
    exact Matrix.ext fun i j => by cases i <;> simp [stackedFactors, Matrix.fromRows]
  have hQ : wQstackᵀ * wQstack = 1 := by
    rw [wQstack, Matrix.transpose_fromRows, Matrix.fromColumns_mul_fromRows]
    simp
  exact ⟨hQR, hQ, marginalise_sqrt_sum_correct wSumZero wNormalZero 0
    wNormalZero wQstack hQR hQ⟩

end MarginaliseProof

section CondenseProof

variable {n d : Type*} [Fintype n] {F : Type*} [Field F]

theorem condense_noise_gram (sumFac : Matrix n n F → Matrix n n F → Matrix n n F)
    (x y : BackwardModel n d F)
    (h : SqrtSumContract sumFac (x.transition * y.noise.cov_sqrtm_lower)ᵀ
      x.noise.cov_sqrtm_lowerᵀ) :
    noiseGram (condense_backward_models sumFac x y)
      = x.transition * noiseGram y * x.transitionᵀ + noiseGram x := by
  show (sumFac _ _)ᵀ * ((sumFac _ _)ᵀ)ᵀ = _
  rw [Matrix.transpose_transpose, h]
  unfold noiseGram
  simp only [Matrix.transpose_transpose, Matrix.transpose_mul, Matrix.mul_assoc]

theorem condense_transition (sumFac : Matrix n n F → Matrix n n F → Matrix n n F)
    (x y : BackwardModel n d F) :
    (condense_backward_models sumFac x y).transition = x.transition * y.transition :=
  rfl

/-- C9: composition of backward conditionals via `condense_backward_models` is
associative: condensing `(a with b)` then with `c` yields the same transition
operator, the same noise mean, and the same noise-covariance Gram product as
condensing `a` with `(b then c)`, whenever the square-root summation kernel
satisfies its Gram contract at the four inputs it is called on. -/
theorem condense_backward_models_assoc
    (sumFac : Matrix n n F → Matrix n n F → Matrix n n F)
    (a b c : BackwardModel n d F)
    (h1 : SqrtSumContract sumFac (a.transition * b.noise.cov_sqrtm_lower)ᵀ
      a.noise.cov_sqrtm_lowerᵀ)
    (h2 : SqrtSumContract sumFac
      ((condense_backward_models sumFac a b).transition * c.noise.cov_sqrtm_lower)ᵀ
      (condense_backward_models sumFac a b).noise.cov_sqrtm_lowerᵀ)
    (h3 : SqrtSumContract sumFac (b.transition * c.noise.cov_sqrtm_lower)ᵀ
      b.noise.cov_sqrtm_lowerᵀ)
    (h4 : SqrtSumContract sumFac
      (a.transition * (condense_backward_models sumFac b c).noise.cov_sqrtm_lower)ᵀ
      a.noise.cov_sqrtm_lowerᵀ) :
    (condense_backward_models sumFac (condense_backward_models sumFac a b) c).transition
      = (condense_backward_models sumFac a (condense_backward_models sumFac b c)).transition
    ∧ (condense_backward_models sumFac (condense_backward_models sumFac a b) c).noise.mean
      = (condense_backward_models sumFac a (condense_backward_models sumFac b c)).noise.mean
    ∧ noiseGram (condense_backward_models sumFac (condense_backward_models sumFac a b) c)
      = noiseGram (condense_backward_models sumFac a
          (condense_backward_models sumFac b c)) := by
  refine ⟨?_, ?_, ?_⟩
  · simp only [condense_transition, Matrix.mul_assoc]
  · show (condense_backward_models sumFac a b).transition * c.noise.mean
        + (condense_backward_models sumFac a b).noise.mean
      = a.transition * ((condense_backward_models sumFac b c).noise.mean) + a.noise.mean
    show a.transition * b.transition * c.noise.mean
        + (a.transition * b.noise.mean + a.noise.mean)
      = a.transition * (b.transition * c.noise.mean + b.noise.mean) + a.noise.mean
    rw [Matrix.mul_add, Matrix.mul_assoc, add_assoc]
  · rw [condense_noise_gram sumFac _ c h2, condense_noise_gram sumFac a b h1,
      condense_noise_gram sumFac a _ h4, condense_noise_gram sumFac b c h3,
      condense_transition]
    simp only [Matrix.mul_add, Matrix.add_mul, Matrix.transpose_mul, Matrix.mul_assoc,
      add_assoc]

/-- Witness for C9 at a concrete instance: three backward models with
nontrivial transitions and noise means, zero noise factors, and the zero
summation kernel. -/
theorem condense_backward_models_assoc_witness :
    (SqrtSumContract wSumZero (wBMa.transition * wBMb.noise.cov_sqrtm_lower)ᵀ
        wBMa.noise.cov_sqrtm_lowerᵀ
      ∧ SqrtSumContract wSumZero
          ((condense_backward_models wSumZero wBMa wBMb).transition
            * wBMc.noise.cov_sqrtm_lower)ᵀ
          (condense_backward_models wSumZero wBMa wBMb).noise.cov_sqrtm_lowerᵀ
      ∧ SqrtSumContract wSumZero (wBMb.transition * wBMc.noise.cov_sqrtm_lower)ᵀ
          wBMb.noise.cov_sqrtm_lowerᵀ
      ∧ SqrtSumContract wSumZero
          (wBMa.transition * (condense_backward_models wSumZero wBMb wBMc).noise.cov_sqrtm_lower)ᵀ
          wBMa.noise.cov_sqrtm_lowerᵀ)
    ∧ ((condense_backward_models wSumZero (condense_backward_models wSumZero wBMa wBMb)
          wBMc).transition
        = (condense_backward_models wSumZero wBMa
            (condense_backward_models wSumZero wBMb wBMc)).transition
      ∧ (condense_backward_models wSumZero (condense_backward_models wSumZero wBMa wBMb)
            wBMc).noise.mean
        = (condense_backward_models wSumZero wBMa
            (condense_backward_models wSumZero wBMb wBMc)).noise.mean
      ∧ noiseGram (condense_backward_models wSumZero
            (condense_backward_models wSumZero wBMa wBMb) wBMc)
        = noiseGram (condense_backward_models wSumZero wBMa
            (condense_backward_models wSumZero wBMb wBMc))) := by
  have hzero : ∀ R1 R2 : Matrix (Fin 1) (Fin 1) ℚ, R1 = 0 → R2 = 0 →
      SqrtSumContract wSumZero R1 R2 := by
    intro R1 R2 hR1 hR2
    subst hR1; subst hR2
    show (wSumZero 0 0)ᵀ * wSumZero 0 0 = 0ᵀ * 0 + 0ᵀ * 0
    show (0 : Matrix (Fin 1) (Fin 1) ℚ)ᵀ * 0 = 0ᵀ * 0 + 0ᵀ * 0
    rw [Matrix.transpose_zero, Matrix.mul_zero, add_zero]
  have hcov_ab : (condense_backward_models wSumZero wBMa wBMb).noise.cov_sqrtm_lower
      = (0 : Matrix (Fin 1) (Fin 1) ℚ) := by
    show (wSumZero _ _)ᵀ = 0
    show (0 : Matrix (Fin 1) (Fin 1) ℚ)ᵀ = 0
    exact Matrix.transpose_zero
  have hcov_bc : (condense_backward_models wSumZero wBMb wBMc).noise.cov_sqrtm_lower
      = (0 : Matrix (Fin 1) (Fin 1) ℚ) := by
    show (wSumZero _ _)ᵀ = 0
    show (0 : Matrix (Fin 1) (Fin 1) ℚ)ᵀ = 0
    exact Matrix.transpose_zero
  have hza : wBMa.noise.cov_sqrtm_lower = (0 : Matrix (Fin 1) (Fin 1) ℚ) := rfl
  have hzb : wBMb.noise.cov_sqrtm_lower = (0 : Matrix (Fin 1) (Fin 1) ℚ) := rfl
  have hzc : wBMc.noise.cov_sqrtm_lower = (0 : Matrix (Fin 1) (Fin 1) ℚ) := rfl
  have h1 : SqrtSumContract wSumZero (wBMa.transition * wBMb.noise.cov_sqrtm_lower)ᵀ
      wBMa.noise.cov_sqrtm_lowerᵀ :=
    hzero _ _ (by rw [hzb, Matrix.mul_zero, Matrix.transpose_zero])
      (by rw [hza, Matrix.transpose_zero])
  have h2 : SqrtSumContract wSumZero
      ((condense_backward_models wSumZero wBMa wBMb).transition
        * wBMc.noise.cov_sqrtm_lower)ᵀ
      (condense_backward_models wSumZero wBMa wBMb).noise.cov_sqrtm_lowerᵀ :=
    hzero _ _ (by rw [hzc, Matrix.mul_zero, Matrix.transpose_zero])
      (by rw [hcov_ab, Matrix.transpose_zero])
  have h3 : SqrtSumContract wSumZero (wBMb.transition * wBMc.noise.cov_sqrtm_lower)ᵀ
      wBMb.noise.cov_sqrtm_lowerᵀ :=
    hzero _ _ (by rw [hzc, Matrix.mul_zero, Matrix.transpose_zero])
      (by rw [hzb, Matrix.transpose_zero])
  have h4 : SqrtSumContract wSumZero
      (wBMa.transition * (condense_backward_models wSumZero wBMb wBMc).noise.cov_sqrtm_lower)ᵀ
      wBMa.noise.cov_sqrtm_lowerᵀ :=
    hzero _ _ (by rw [hcov_bc, Matrix.mul_zero, Matrix.transpose_zero])
      (by rw [hza, Matrix.transpose_zero])
  exact ⟨⟨h1, h2, h3, h4⟩, condense_backward_models_assoc wSumZero wBMa wBMb wBMc h1 h2 h3 h4⟩

end CondenseProof

section PreconditionerProof

variable {n d : Type*} [Fintype n] {F : Type*} [Field F]

theorem rowScale_left_inv (p p_inv : n → F) (hp : ∀ i, p i * p_inv i = 1)
    (M : Matrix n d F) : rowScale p_inv (rowScale p M) = M := by
  funext i j
  show p_inv i * (p i * M i j) = M i j
  rw [← mul_assoc, mul_comm (p_inv i) (p i), hp i, one_mul]

theorem rowScale_right_inv (p p_inv : n → F) (hp : ∀ i, p i * p_inv i = 1)
    (M : Matrix n d F) : rowScale p (rowScale p_inv M) = M := by
  funext i j
  show p i * (p_inv i * M i j) = M i j
  rw [← mul_assoc, hp i, one_mul]

/-- C5: the preconditioner is applied before the transition/noise algebra and
exactly inverted afterwards, so every externally returned quantity is in
physical units: `extrapolate_mean` returns `p * (A @ (p_inv * m0))`;
`complete_extrapolation` and `revert_markov_kernel` return the extrapolated
factor, backward-noise mean/factor and backward gain with the preconditioner
un-applied (in particular the gain is `p * g_p * p_inv`), and re-applying the
preconditioner exactly recovers the preconditioned-space quantities. -/
theorem preconditioner_applied_and_inverted
    (sumFac : Matrix n n F → Matrix n n F → Matrix n n F)
    (revertFac : Matrix n n F → Matrix n n F → Matrix n n F →
      Matrix n n F × Matrix n n F × Matrix n n F)
    (a q_sqrtm_lower l0 : Matrix n n F) (m0 m_ext m0_p m_ext_p : Matrix n d F)
    (p p_inv : n → F) (ds : F)
    (hp : ∀ i, p i * p_inv i = 1) :
    (extrapolate_mean a m0 p p_inv).1 = rowScale p (a * rowScale p_inv m0)
    ∧ rowScale p_inv (extrapolate_mean a m0 p p_inv).1
        = (extrapolate_mean a m0 p p_inv).2.1
    ∧ rowScale p (extrapolate_mean a m0 p p_inv).2.2 = m0
    ∧ (complete_extrapolation sumFac a q_sqrtm_lower m_ext l0 p_inv p ds).cov_sqrtm_lower
        = rowScale p ((sumFac (a * rowScale p_inv l0)ᵀ (ds • q_sqrtm_lower)ᵀ)ᵀ)
    ∧ rowScale p_inv
          (complete_extrapolation sumFac a q_sqrtm_lower m_ext l0 p_inv p ds).cov_sqrtm_lower
        = (sumFac (a * rowScale p_inv l0)ᵀ (ds • q_sqrtm_lower)ᵀ)ᵀ
    ∧ (revert_markov_kernel revertFac a q_sqrtm_lower m_ext l0 p p_inv ds m0_p
          m_ext_p).1.cov_sqrtm_lower
        = rowScale p (revert_preconditioned revertFac a q_sqrtm_lower l0 p_inv ds).1ᵀ
    ∧ (revert_markov_kernel revertFac a q_sqrtm_lower m_ext l0 p p_inv ds m0_p
          m_ext_p).2.1.mean
        = rowScale p (m0_p
            - (revert_preconditioned revertFac a q_sqrtm_lower l0 p_inv ds).2.2 * m_ext_p)
    ∧ (revert_markov_kernel revertFac a q_sqrtm_lower m_ext l0 p p_inv ds m0_p
          m_ext_p).2.1.cov_sqrtm_lower
        = rowScale p (revert_preconditioned revertFac a q_sqrtm_lower l0 p_inv ds).2.1ᵀ
    ∧ (revert_markov_kernel revertFac a q_sqrtm_lower m_ext l0 p p_inv ds m0_p
          m_ext_p).2.2
        = (fun i j =>
            p i * (revert_preconditioned revertFac a q_sqrtm_lower l0 p_inv ds).2.2 i j
              * p_inv j)
    ∧ (fun i j =>
          p_inv i * (revert_markov_kernel revertFac a q_sqrtm_lower m_ext l0 p p_inv ds
            m0_p m_ext_p).2.2 i j * p j)
        = (revert_preconditioned revertFac a q_sqrtm_lower l0 p_inv ds).2.2 := by
  refine ⟨rfl, ?_, ?_, rfl, ?_, rfl, rfl, rfl, rfl, ?_⟩
  · exact rowScale_left_inv p p_inv hp _
  · exact rowScale_right_inv p p_inv hp m0
  · exact rowScale_left_inv p p_inv hp _
  · funext i j
    show p_inv i * (p i * (revert_preconditioned revertFac a q_sqrtm_lower l0 p_inv ds).2.2 i j
      * p_inv j) * p j = _
    have e : p_inv i * (p i
          * (revert_preconditioned revertFac a q_sqrtm_lower l0 p_inv ds).2.2 i j
          * p_inv j) * p j
        = (p i * p_inv i)
          * ((p j * p_inv j)
            * (revert_preconditioned revertFac a q_sqrtm_lower l0 p_inv ds).2.2 i j) := by
      ring
    rw [e, hp i, hp j, one_mul, one_mul]

end PreconditionerProof

section PreconditionerWitness

/-- Witness for C5 at a concrete instance with `p = 2`, `p_inv = 1/2`. -/
theorem preconditioner_applied_and_inverted_witness :
    (∀ i, wP i * wPinv i = 1)
    ∧ ((extrapolate_mean wA wM0 wP wPinv).1 = rowScale wP (wA * rowScale wPinv wM0)
      ∧ rowScale wPinv (extrapolate_mean wA wM0 wP wPinv).1
          = (extrapolate_mean wA wM0 wP wPinv).2.1
      ∧ rowScale wP (extrapolate_mean wA wM0 wP wPinv).2.2 = wM0
      ∧ (complete_extrapolation wSumZero wA wQnoise wM0 wL0 wPinv wP 2).cov_sqrtm_lower
          = rowScale wP ((wSumZero (wA * rowScale wPinv wL0)ᵀ ((2 : ℚ) • wQnoise)ᵀ)ᵀ)
      ∧ rowScale wPinv
            (complete_extrapolation wSumZero wA wQnoise wM0 wL0 wPinv wP 2).cov_sqrtm_lower
          = (wSumZero (wA * rowScale wPinv wL0)ᵀ ((2 : ℚ) • wQnoise)ᵀ)ᵀ
      ∧ (revert_markov_kernel wRevConst wA wQnoise wM0 wL0 wP wPinv 2 wM0p
            wMextp).1.cov_sqrtm_lower
          = rowScale wP (revert_preconditioned wRevConst wA wQnoise wL0 wPinv 2).1ᵀ
      ∧ (revert_markov_kernel wRevConst wA wQnoise wM0 wL0 wP wPinv 2 wM0p
            wMextp).2.1.mean
          = rowScale wP (wM0p
              - (revert_preconditioned wRevConst wA wQnoise wL0 wPinv 2).2.2 * wMextp)
      ∧ (revert_markov_kernel wRevConst wA wQnoise wM0 wL0 wP wPinv 2 wM0p
            wMextp).2.1.cov_sqrtm_lower
          = rowScale wP (revert_preconditioned wRevConst wA wQnoise wL0 wPinv 2).2.1ᵀ
      ∧ (revert_markov_kernel wRevConst wA wQnoise wM0 wL0 wP wPinv 2 wM0p
            wMextp).2.2
          = (fun i j =>
              wP i * (revert_preconditioned wRevConst wA wQnoise wL0 wPinv 2).2.2 i j
                * wPinv j)
      ∧ (fun i j =>
            wPinv i * (revert_markov_kernel wRevConst wA wQnoise wM0 wL0 wP wPinv 2
              wM0p wMextp).2.2 i j * wP j)
          = (revert_preconditioned wRevConst wA wQnoise wL0 wPinv 2).2.2) := by
  have hp : ∀ i, wP i * wPinv i = 1 := by
    intro i
    show (2 : ℚ) * (1 / 2) = 1
    norm_num
  exact ⟨hp, preconditioner_applied_and_inverted wSumZero wRevConst wA wQnoise wL0
    wM0 wM0 wM0p wMextp wP wPinv 2 hp⟩

end PreconditionerWitness

section MarginaliseBackwardsProof

variable {n d : Type*} [Fintype n] {F : Type*} [Field F]

/-- C10: `marginalise_backwards` ignores the backward model at index 0: two
backward-model stacks that agree from entry 1 onward produce identical
marginal sequences, because the scan consumes only `backward_model[1:]`. -/
theorem marginalise_backwards_ignores_first
    (sumFac : Matrix n n F → Matrix n n F → Matrix n n F)
    (init : IsotropicNormal n d F)
    (bms1 bms2 : List (BackwardModel n d F))
    (h : bms1.drop 1 = bms2.drop 1) :
    marginalise_backwards sumFac init bms1 = marginalise_backwards sumFac init bms2 := by
  unfold marginalise_backwards
  rw [h]

/-- Witness for C10: two concrete two-element backward-model stacks whose first
entries differ produce identical marginal sequences. -/
theorem marginalise_backwards_ignores_first_witness :
    ([wBMhead1, wBMa].drop 1 = [wBMhead2, wBMa].drop 1)
    ∧ marginalise_backwards wSumZero wRVZero [wBMhead1, wBMa]
        = marginalise_backwards wSumZero wRVZero [wBMhead2, wBMa] :=
  ⟨rfl, marginalise_backwards_ignores_first wSumZero wRVZero
    [wBMhead1, wBMa] [wBMhead2, wBMa] rfl⟩

end MarginaliseBackwardsProof

section RevertConditionalProof

variable {m n : Type*} [Fintype m] [Fintype n] [DecidableEq m] [DecidableEq n]
variable {F : Type*} [Field F]

/-- C1: for every valid triple of square-root blocks, `revert_conditional`
(characterised by the joint QR factorisation of `revertStack` with an
orthonormal-column `Q` and the triangular-solve gain) returns
`(R_extrapolated, (noise_factor, gain))` with
`R_extrapolatedᵀ R_extrapolated = S`, `gain = K = C HCᵀ S⁻¹`, and
`noise_factorᵀ noise_factor = C Cᵀ - K S Kᵀ`; the index types `m` and `n` are
unrelated, so this covers non-square (over/under-complete) observation
operators. -/
theorem revert_conditional_correct
    (R_X_F : Matrix n m F) (R_X : Matrix n n F) (R_YX : Matrix m m F)
    (Q : Matrix (m ⊕ n) (m ⊕ n) F)
    (R_Y : Matrix m m F) (R_YXnew : Matrix m n F) (R_Xnew : Matrix n n F)
    (gain : Matrix n m F)
    (hQR : revertStack R_X_F R_X R_YX = Q * Matrix.fromBlocks R_Y R_YXnew 0 R_Xnew)
    (hQ : Qᵀ * Q = 1)
    (hgain : R_Y * gainᵀ = R_YXnew)
    (hS : IsUnit (marginalCov R_X_F R_YX).det) :
    R_Yᵀ * R_Y = marginalCov R_X_F R_YX
    ∧ gain = kalmanGain R_X_F R_X R_YX
    ∧ R_Xnewᵀ * R_Xnew = conditionalCov R_X_F R_X R_YX := by
  have hMM : (revertStack R_X_F R_X R_YX)ᵀ * revertStack R_X_F R_X R_YX
      = (Matrix.fromBlocks R_Y R_YXnew 0 R_Xnew)ᵀ
          * Matrix.fromBlocks R_Y R_YXnew 0 R_Xnew := by
    rw [hQR, Matrix.transpose_mul, Matrix.mul_assoc,
      ← Matrix.mul_assoc Qᵀ Q (Matrix.fromBlocks R_Y R_YXnew 0 R_Xnew), hQ,
      Matrix.one_mul]
  have hB : Matrix.fromBlocks (R_YXᵀ * R_YX + R_X_Fᵀ * R_X_F)
      (R_YXᵀ * (0 : Matrix m n F) + R_X_Fᵀ * R_X)
      ((0 : Matrix m n F)ᵀ * R_YX + R_Xᵀ * R_X_F)
      ((0 : Matrix m n F)ᵀ * (0 : Matrix m n F) + R_Xᵀ * R_X)
      = Matrix.fromBlocks (R_Yᵀ * R_Y + (0 : Matrix n m F)ᵀ * (0 : Matrix n m F))
          (R_Yᵀ * R_YXnew + (0 : Matrix n m F)ᵀ * R_Xnew)
          (R_YXnewᵀ * R_Y + R_Xnewᵀ * (0 : Matrix n m F))
          (R_YXnewᵀ * R_YXnew + R_Xnewᵀ * R_Xnew) := by
    rw [← Matrix.fromBlocks_multiply, ← Matrix.fromBlocks_transpose,
      ← Matrix.fromBlocks_multiply, ← Matrix.fromBlocks_transpose]
    exact hMM
  have e11 : R_YXᵀ * R_YX + R_X_Fᵀ * R_X_F = R_Yᵀ * R_Y := by
    have h := congrArg Matrix.toBlocks₁₁ hB
    simpa [Matrix.toBlocks_fromBlocks₁₁, Matrix.transpose_zero, Matrix.mul_zero,
      Matrix.zero_mul] using h
  have e12 : R_X_Fᵀ * R_X = R_Yᵀ * R_YXnew := by
    have h := congrArg Matrix.toBlocks₁₂ hB
    simpa [Matrix.toBlocks_fromBlocks₁₂, Matrix.transpose_zero, Matrix.mul_zero,
      Matrix.zero_mul] using h
  have e22 : R_Xᵀ * R_X = R_YXnewᵀ * R_YXnew + R_Xnewᵀ * R_Xnew := by
    have h := congrArg Matrix.toBlocks₂₂ hB
    simpa [Matrix.toBlocks_fromBlocks₂₂, Matrix.transpose_zero, Matrix.mul_zero,
      Matrix.zero_mul] using h
  have hSY : R_Yᵀ * R_Y = marginalCov R_X_F R_YX := by
    rw [marginalCov, ← e11, add_comm]
  have hdetY : IsUnit R_Y.det := by
    have h1 : (marginalCov R_X_F R_YX).det = R_Y.det * R_Y.det := by
      rw [← hSY, Matrix.det_mul, Matrix.det_transpose]
    exact isUnit_of_mul_isUnit_left (h1 ▸ hS)
  have hdetYT : IsUnit R_Yᵀ.det := by rw [Matrix.det_transpose]; exact hdetY
  have hgainT : gainᵀ = R_Y⁻¹ * R_YXnew := by
    rw [← hgain, ← Matrix.mul_assoc, Matrix.nonsing_inv_mul R_Y hdetY, Matrix.one_mul]
  have hgain2 : gain = R_YXnewᵀ * (R_Yᵀ)⁻¹ := by
    have h := congrArg Matrix.transpose hgainT
    rw [Matrix.transpose_transpose, Matrix.transpose_mul,
      Matrix.transpose_nonsing_inv] at h
    exact h
  have hXf : R_Xᵀ * R_X_F = R_YXnewᵀ * R_Y := by
    have h := congrArg Matrix.transpose e12
    simpa [Matrix.transpose_mul, Matrix.transpose_transpose] using h
  have hK : kalmanGain R_X_F R_X R_YX = R_YXnewᵀ * (R_Yᵀ)⁻¹ := by
    rw [kalmanGain, hXf, ← hSY, Matrix.mul_inv_rev, Matrix.mul_assoc,
      ← Matrix.mul_assoc R_Y R_Y⁻¹ (R_Yᵀ)⁻¹, Matrix.mul_nonsing_inv R_Y hdetY,
      Matrix.one_mul]
  have hKSK : kalmanGain R_X_F R_X R_YX * marginalCov R_X_F R_YX
      * (kalmanGain R_X_F R_X R_YX)ᵀ = R_YXnewᵀ * R_YXnew := by
    rw [hK, ← hSY, Matrix.transpose_mul, Matrix.transpose_nonsing_inv,
      Matrix.transpose_transpose]
    calc R_YXnewᵀ * (R_Yᵀ)⁻¹ * (R_Yᵀ * R_Y) * (R_Y⁻¹ * R_YXnew)
        = R_YXnewᵀ * (((R_Yᵀ)⁻¹ * R_Yᵀ) * ((R_Y * R_Y⁻¹) * R_YXnew)) := by
          simp only [Matrix.mul_assoc]
      _ = R_YXnewᵀ * R_YXnew := by
          rw [Matrix.nonsing_inv_mul R_Yᵀ hdetYT, Matrix.mul_nonsing_inv R_Y hdetY,
            Matrix.one_mul, Matrix.one_mul]
  refine ⟨hSY, by rw [hgain2, hK], ?_⟩
  rw [conditionalCov, hKSK, e22, add_sub_cancel_left]

/-- Witness for C1 at a concrete instance with trivial joint blocks, `Q = 1`,
and the triangular factor equal to the stacked matrix itself. -/
theorem revert_conditional_correct_witness :
    (revertStack (0 : Matrix (Fin 1) (Fin 1) ℚ) 1 1
        = 1 * Matrix.fromBlocks 1 0 0 1)
    ∧ ((1 : Matrix (Fin 1 ⊕ Fin 1) (Fin 1 ⊕ Fin 1) ℚ)ᵀ * 1 = 1)
    ∧ ((1 : Matrix (Fin 1) (Fin 1) ℚ) * (0 : Matrix (Fin 1) (Fin 1) ℚ)ᵀ = 0)
    ∧ IsUnit (marginalCov (0 : Matrix (Fin 1) (Fin 1) ℚ) 1).det
    ∧ ((1 : Matrix (Fin 1) (Fin 1) ℚ)ᵀ * 1
        = marginalCov (0 : Matrix (Fin 1) (Fin 1) ℚ) 1
      ∧ (0 : Matrix (Fin 1) (Fin 1) ℚ) = kalmanGain (0 : Matrix (Fin 1) (Fin 1) ℚ) 1 1
      ∧ (1 : Matrix (Fin 1) (Fin 1) ℚ)ᵀ * 1
          = conditionalCov (0 : Matrix (Fin 1) (Fin 1) ℚ) 1 1) := by
  have hQR : revertStack (0 : Matrix (Fin 1) (Fin 1) ℚ) 1 1
      = 1 * Matrix.fromBlocks 1 0 0 1 := by
    rw [Matrix.one_mul]
    rfl
  have hQ : (1 : Matrix (Fin 1 ⊕ Fin 1) (Fin 1 ⊕ Fin 1) ℚ)ᵀ * 1 = 1 := by
    rw [Matrix.transpose_one, Matrix.one_mul]
  have hgain : (1 : Matrix (Fin 1) (Fin 1) ℚ) * (0 : Matrix (Fin 1) (Fin 1) ℚ)ᵀ = 0 := by
    rw [Matrix.transpose_zero, Matrix.mul_zero]
  have hmc : marginalCov (0 : Matrix (Fin 1) (Fin 1) ℚ) 1 = 1 := by
    rw [marginalCov, Matrix.transpose_zero, Matrix.zero_mul, Matrix.transpose_one,
      Matrix.one_mul, zero_add]
  have hS : IsUnit (marginalCov (0 : Matrix (Fin 1) (Fin 1) ℚ) 1).det := by
    rw [hmc, Matrix.det_one]
    exact isUnit_one
  exact ⟨hQR, hQ, hgain, hS,
    revert_conditional_correct 0 1 1 1 1 0 1 0 hQR hQ hgain hS⟩

end RevertConditionalProof

section EstimateErrorProof

variable {n d : Type*} [Fintype n] [Fintype d]

/-- C4: for every linearized observation operator and process-noise square
root, including those producing a zero raw observation column,
`estimate_error` never divides by zero: the observation-noise magnitude used
as divisor of the whitened residual is the guarded `obs_magnitude`, which is
strictly positive for every input. -/
theorem estimate_error_guarded_divisor (eps : ℝ) (heps : 0 < eps)
    (linear_fn : Matrix n n ℝ → (n → ℝ)) (m_obs : d → ℝ) (p : n → ℝ)
    (q_sqrtm_lower : Matrix n n ℝ) :
    0 < obs_magnitude eps linear_fn p q_sqrtm_lower
    ∧ (estimate_error eps linear_fn m_obs p q_sqrtm_lower).1
        = sqrtm_to_cholesky_col eps
            (fun i => m_obs i / obs_magnitude eps linear_fn p q_sqrtm_lower
              / Real.sqrt (Fintype.card d))
    ∧ (estimate_error eps linear_fn m_obs p q_sqrtm_lower).2
        = (estimate_error eps linear_fn m_obs p q_sqrtm_lower).1
            * obs_magnitude eps linear_fn p q_sqrtm_lower := by
  refine ⟨?_, rfl, rfl⟩
  unfold obs_magnitude sqrtm_to_cholesky_col
  by_cases h : linear_fn (rowScale p q_sqrtm_lower) = 0
  · rw [if_pos h]
    exact heps
  · rw [if_neg h]
    apply Real.sqrt_pos.mpr
    obtain ⟨i, hi⟩ := Function.ne_iff.mp h
    have hi2 : linear_fn (rowScale p q_sqrtm_lower) i ≠ 0 := hi
    exact Finset.sum_pos' (fun j _ => sq_nonneg _)
      ⟨i, Finset.mem_univ i, pow_two_pos_of_ne_zero hi2⟩

/-- Witness for C4 at a concrete instance whose raw observation column is
exactly zero, so that the epsilon guard is the active branch. -/
theorem estimate_error_guarded_divisor_witness :
    (0 : ℝ) < 1
    ∧ (0 < obs_magnitude 1 (fun _ => (0 : Fin 1 → ℝ)) (0 : Fin 1 → ℝ)
          (0 : Matrix (Fin 1) (Fin 1) ℝ)
      ∧ (estimate_error 1 (fun _ => (0 : Fin 1 → ℝ)) (0 : Fin 1 → ℝ) (0 : Fin 1 → ℝ)
            (0 : Matrix (Fin 1) (Fin 1) ℝ)).1
          = sqrtm_to_cholesky_col 1
              (fun i => (0 : Fin 1 → ℝ) i
                / obs_magnitude 1 (fun _ => (0 : Fin 1 → ℝ)) (0 : Fin 1 → ℝ)
                    (0 : Matrix (Fin 1) (Fin 1) ℝ)
                / Real.sqrt (Fintype.card (Fin 1)))
      ∧ (estimate_error 1 (fun _ => (0 : Fin 1 → ℝ)) (0 : Fin 1 → ℝ) (0 : Fin 1 → ℝ)
            (0 : Matrix (Fin 1) (Fin 1) ℝ)).2
          = (estimate_error 1 (fun _ => (0 : Fin 1 → ℝ)) (0 : Fin 1 → ℝ) (0 : Fin 1 → ℝ)
              (0 : Matrix (Fin 1) (Fin 1) ℝ)).1
            * obs_magnitude 1 (fun _ => (0 : Fin 1 → ℝ)) (0 : Fin 1 → ℝ)
                (0 : Matrix (Fin 1) (Fin 1) ℝ)) :=
  ⟨one_pos, estimate_error_guarded_divisor 1 one_pos (fun _ => 0) 0 0 0⟩

end EstimateErrorProof

section CheckpointProof

variable {n d : Type*} [Fintype n] {F : Type*} [Field F]

theorem marginalise_model_gram (sumFac : Matrix n n F → Matrix n n F → Matrix n n F)
    (hsum : ∀ R1 R2 : Matrix n n F, SqrtSumContract sumFac R1 R2)
    (init : IsotropicNormal n d F) (linop : Matrix n n F)
    (noise : IsotropicNormal n d F) :
    (marginalise_model_isotropic sumFac init linop noise).cov_sqrtm_lower
        * (marginalise_model_isotropic sumFac init linop noise).cov_sqrtm_lowerᵀ
      = linop * (init.cov_sqrtm_lower * init.cov_sqrtm_lowerᵀ) * linopᵀ
        + noise.cov_sqrtm_lower * noise.cov_sqrtm_lowerᵀ := by
  show (sumFac _ _)ᵀ * ((sumFac _ _)ᵀ)ᵀ = _
  rw [Matrix.transpose_transpose, hsum _ _]
  simp only [Matrix.transpose_transpose, Matrix.transpose_mul, Matrix.mul_assoc]

theorem marginalise_model_congr [DecidableEq n]
    (sumFac : Matrix n n F → Matrix n n F → Matrix n n F)
    (hsum : ∀ R1 R2 : Matrix n n F, SqrtSumContract sumFac R1 R2)
    {s t : IsotropicNormal n d F} {x y : BackwardModel n d F}
    (hst : gramEquivRV s t) (hxy : gramEquivBM x y) :
    gramEquivRV (marginalise_model_isotropic sumFac s x.transition x.noise)
      (marginalise_model_isotropic sumFac t y.transition y.noise) := by
  obtain ⟨hmean, hgram⟩ := hst
  obtain ⟨htrans, hnmean, hngram⟩ := hxy
  constructor
  · show x.transition * s.mean + x.noise.mean = y.transition * t.mean + y.noise.mean
    rw [htrans, hmean, hnmean]
  · rw [marginalise_model_gram sumFac hsum, marginalise_model_gram sumFac hsum,
      htrans, hgram, hngram]

theorem scanAccum_congr [DecidableEq n]
    (sumFac : Matrix n n F → Matrix n n F → Matrix n n F)
    (hsum : ∀ R1 R2 : Matrix n n F, SqrtSumContract sumFac R1 R2)
    {xs ys : List (BackwardModel n d F)} (hxy : List.Forall₂ gramEquivBM xs ys)
    {s t : IsotropicNormal n d F} (hst : gramEquivRV s t) :
    List.Forall₂ gramEquivRV
      (scanAccum (fun c x => marginalise_model_isotropic sumFac c x.transition x.noise)
        s xs)
      (scanAccum (fun c y => marginalise_model_isotropic sumFac c y.transition y.noise)
        t ys) := by
  induction hxy generalizing s t with
  | nil => exact List.Forall₂.nil
  | cons h _ ih =>
      exact List.Forall₂.cons (marginalise_model_congr sumFac hsum hst h)
        (ih (marginalise_model_congr sumFac hsum hst h))

theorem gramEquivRV_refl [DecidableEq n] (s : IsotropicNormal n d F) :
    gramEquivRV s s :=
  ⟨rfl, rfl⟩

theorem marginalise_backwards_congr [DecidableEq n]
    (sumFac : Matrix n n F → Matrix n n F → Matrix n n F)
    (hsum : ∀ R1 R2 : Matrix n n F, SqrtSumContract sumFac R1 R2)
    (init : IsotropicNormal n d F)
    {xs ys : List (BackwardModel n d F)} (hxy : List.Forall₂ gramEquivBM xs ys) :
    List.Forall₂ gramEquivRV (marginalise_backwards sumFac init xs)
      (marginalise_backwards sumFac init ys) := by
  unfold marginalise_backwards scan_with_init
  simp only [if_true]
  apply List.rel_append
  · exact List.rel_reverse
      (scanAccum_congr sumFac hsum (List.rel_reverse (List.forall₂_drop 1 hxy))
        (gramEquivRV_refl init))
  · exact List.Forall₂.cons (gramEquivRV_refl init) List.Forall₂.nil

/-- C3: modelled over a shared forward pass (the drivers are not among the
sources): with checkpoints equal to the accepted grid, the fixed-point
`solve_and_save_at` solution agrees with the smoother
`solve_adaptive_save_every_step` solution pointwise at every grid node: the
time points and output scales are identical; the stored backward conditionals
have identical transitions and noise means and equal noise-covariance Gram
products; and the smoothed marginals have identical means and equal
covariance Gram products (the factors may differ by an orthogonal transform). -/
theorem checkpoint_same_grid_equivalence [DecidableEq n]
    (sumFac : Matrix n n F → Matrix n n F → Matrix n n F)
    (hsum : ∀ R1 R2 : Matrix n n F, SqrtSumContract sumFac R1 R2)
    (ts output_scales : List F) (init : IsotropicNormal n d F)
    (bms : List (BackwardModel n d F)) :
    (fixedpoint_solution sumFac ts output_scales init bms).ts
        = (smoother_solution sumFac ts output_scales init bms).ts
    ∧ (fixedpoint_solution sumFac ts output_scales init bms).output_scales
        = (smoother_solution sumFac ts output_scales init bms).output_scales
    ∧ List.Forall₂ gramEquivBM
        (fixedpoint_solution sumFac ts output_scales init bms).backward_models
        (smoother_solution sumFac ts output_scales init bms).backward_models
    ∧ List.Forall₂ gramEquivRV
        (fixedpoint_solution sumFac ts output_scales init bms).marginals
        (smoother_solution sumFac ts output_scales init bms).marginals := by
  have hequiv : List.Forall₂ gramEquivBM (fixedpoint_stored sumFac bms) bms := by
    induction bms with
    | nil => exact List.Forall₂.nil
    | cons bm rest ih =>
        refine List.Forall₂.cons ⟨?_, ?_, ?_⟩ ih
        · show (1 : Matrix n n F) * bm.transition = bm.transition
          rw [Matrix.one_mul]
        · show (1 : Matrix n n F) * bm.noise.mean + 0 = bm.noise.mean
          rw [Matrix.one_mul, add_zero]
        · show noiseGram (condense_backward_models sumFac (trivial_backward_model n d F) bm)
            = noiseGram bm
          rw [condense_noise_gram sumFac (trivial_backward_model n d F) bm (hsum _ _)]
          show (1 : Matrix n n F) * noiseGram bm * (1 : Matrix n n F)ᵀ
              + (0 : Matrix n n F) * (0 : Matrix n n F)ᵀ = noiseGram bm
          rw [Matrix.one_mul, Matrix.transpose_one, Matrix.mul_one, Matrix.zero_mul,
            add_zero]
  exact ⟨rfl, rfl, hequiv, marginalise_backwards_congr sumFac hsum init hequiv⟩

end CheckpointProof

section CheckpointWitness

/-- Witness for C3 at a concrete instance: the zero-dimensional state space,
where the summation kernel satisfies its contract at every input, with a
two-node grid and a nonempty backward-model stack. -/
theorem checkpoint_same_grid_equivalence_witness :
    (∀ R1 R2 : Matrix (Fin 0) (Fin 0) ℚ, SqrtSumContract wSumNil R1 R2)
    ∧ ((fixedpoint_solution wSumNil [0, 1] [1, 1] wRVNil [wBMNil, wBMNil]).ts
        = (smoother_solution wSumNil [0, 1] [1, 1] wRVNil [wBMNil, wBMNil]).ts
      ∧ (fixedpoint_solution wSumNil [0, 1] [1, 1] wRVNil [wBMNil, wBMNil]).output_scales
        = (smoother_solution wSumNil [0, 1] [1, 1] wRVNil [wBMNil, wBMNil]).output_scales
      ∧ List.Forall₂ gramEquivBM
          (fixedpoint_solution wSumNil [0, 1] [1, 1] wRVNil
            [wBMNil, wBMNil]).backward_models
          (smoother_solution wSumNil [0, 1] [1, 1] wRVNil
            [wBMNil, wBMNil]).backward_models
      ∧ List.Forall₂ gramEquivRV
          (fixedpoint_solution wSumNil [0, 1] [1, 1] wRVNil [wBMNil, wBMNil]).marginals
          (smoother_solution wSumNil [0, 1] [1, 1] wRVNil [wBMNil, wBMNil]).marginals) := by
  have hsum : ∀ R1 R2 : Matrix (Fin 0) (Fin 0) ℚ, SqrtSumContract wSumNil R1 R2 := by
    intro R1 R2
    show (wSumNil R1 R2)ᵀ * wSumNil R1 R2 = R1ᵀ * R1 + R2ᵀ * R2
    funext i
    exact i.elim0
  exact ⟨hsum, checkpoint_same_grid_equivalence wSumNil hsum [0, 1] [1, 1] wRVNil
    [wBMNil, wBMNil]⟩

end CheckpointWitness

end OdeFilter
